import Mathlib

/-!
Shallow embedding of `src/src/message_pack/unpack.h` (class `Unpacker` and the
`operator>>` overloads): a streaming MessagePack decoder.

Conventions of the embedding:
* a stream byte is a `Nat` (values 0..255 on the wire);
* the underlying file descriptor is modelled as the list of bytes it will
  deliver; the `Unpacker` state is that list together with the one-byte
  lookahead slot (`have_next_byte` / `next_byte` in the source);
* operations that block forever when the stream cannot supply the requested
  bytes (the `read` loop spins on end-of-stream, see `readRawLoop` below for
  the faithful event-level model) are modelled as returning `none`;
* thrown `unpacker_error` exceptions are modelled with `Except String`;
* `typeid(T).name()` is a parameter `tn` of the generic decode.
-/

namespace KitchenSync

/-! Type codes. Modelled from the spec: the header `type_codes.h` is not under
`src/`; the constants below follow the dispatch table of the spec (section 4.2),
which lists the tag values and ranges of the wire format. -/

def MSGPACK_POSITIVE_FIXNUM_MIN : Nat := 0x00
def MSGPACK_POSITIVE_FIXNUM_MAX : Nat := 0x7F
def MSGPACK_NEGATIVE_FIXNUM_MIN : Nat := 0xE0
def MSGPACK_NEGATIVE_FIXNUM_MAX : Nat := 0xFF
def MSGPACK_FIXMAP_MIN : Nat := 0x80
def MSGPACK_FIXMAP_MAX : Nat := 0x8F
def MSGPACK_FIXARRAY_MIN : Nat := 0x90
def MSGPACK_FIXARRAY_MAX : Nat := 0x9F
def MSGPACK_FIXRAW_MIN : Nat := 0xA0
def MSGPACK_FIXRAW_MAX : Nat := 0xBF
def MSGPACK_NIL : Nat := 0xC0
def MSGPACK_FALSE : Nat := 0xC2
def MSGPACK_TRUE : Nat := 0xC3
def MSGPACK_FLOAT : Nat := 0xCA
def MSGPACK_DOUBLE : Nat := 0xCB
def MSGPACK_UINT8 : Nat := 0xCC
def MSGPACK_UINT16 : Nat := 0xCD
def MSGPACK_UINT32 : Nat := 0xCE
def MSGPACK_UINT64 : Nat := 0xCF
def MSGPACK_INT8 : Nat := 0xD0
def MSGPACK_INT16 : Nat := 0xD1
def MSGPACK_INT32 : Nat := 0xD2
def MSGPACK_INT64 : Nat := 0xD3
def MSGPACK_RAW16 : Nat := 0xDA
def MSGPACK_RAW32 : Nat := 0xDB
def MSGPACK_ARRAY16 : Nat := 0xDC
def MSGPACK_ARRAY32 : Nat := 0xDD
def MSGPACK_MAP16 : Nat := 0xDE
def MSGPACK_MAP32 : Nat := 0xDF

/-- State of class `Unpacker`: the `fd` is modelled by the list of bytes the
stream will deliver, and `lookahead` models the pair of fields
`have_next_byte` / `next_byte` (`some b` iff `have_next_byte`). -/
structure Unpacker where
  lookahead : Option Nat
  stream : List Nat
deriving DecidableEq

/-- The bytes not yet consumed from the logical position of the decoder: the
buffered lookahead byte (if any) followed by the bytes still in the stream. -/
def logicalRem (u : Unpacker) : List Nat :=
  u.lookahead.toList ++ u.stream

/-- `Unpacker::peek`: gets but does not consume the next raw byte.  If the
lookahead slot is empty it performs one underlying read of one byte and stores
it.  `none` models blocking forever on an exhausted stream. -/
def peek (u : Unpacker) : Option (Nat × Unpacker) :=
  match u.lookahead with
  | some b => some (b, u)
  | none =>
    match u.stream with
    | [] => none
    | b :: rest => some (b, ⟨some b, rest⟩)

/-- `Unpacker::read_raw_bytes(buf, bytes)`: consumes the lookahead byte first
when `bytes > 0`, then reads the remaining bytes from the stream.  Returns the
bytes read and the new state; `none` models the `read` loop never returning
because the stream cannot supply the requested bytes. -/
def readRawBytes (u : Unpacker) (n : Nat) : Option (List Nat × Unpacker) :=
  match u.lookahead, n with
  | some b, m + 1 =>
    if m ≤ u.stream.length then
      some (b :: u.stream.take m, ⟨none, u.stream.drop m⟩)
    else none
  | some _, 0 => some ([], u)
  | none, n =>
    if n ≤ u.stream.length then
      some (u.stream.take n, ⟨none, u.stream.drop n⟩)
    else none

/-- `Unpacker::read_raw<uint8_t>()`: one raw byte. -/
def read_u8 (u : Unpacker) : Option (Nat × Unpacker) :=
  match readRawBytes u 1 with
  | some (b :: _, u1) => some (b, u1)
  | _ => none

/-- Modelled from the spec: the header `endian.h` is not under `src/`; per the
spec the `ntohs` / `ntohl` / `ntohll` conversions turn big-endian wire order
into native order, so the semantic value of a converted read is the big-endian
interpretation of the raw bytes, computed here. -/
def beJoin (bs : List Nat) : Nat :=
  bs.foldl (fun acc b => acc * 256 + b) 0

/-- Raw fixed-width read followed by big-endian-to-native conversion, i.e.
`ntohs(read_raw<uint16_t>())` and friends: the semantic value is the
big-endian interpretation of the bytes. -/
def readBE (u : Unpacker) (n : Nat) : Option (Nat × Unpacker) :=
  match readRawBytes u n with
  | none => none
  | some (bs, u1) => some (beJoin bs, u1)

/-- Reinterpret an unsigned value below `2 ^ bits` as a twos-complement signed
value of `bits` bits (the meaning of the C casts to `int8_t` .. `int64_t`). -/
def toSigned (bits : Nat) (n : Nat) : Int :=
  if n < 2 ^ (bits - 1) then (n : Int) else (n : Int) - 2 ^ bits

/-- Bit pattern produced by `read_raw<float>` / `read_raw<double>`: the stream
bytes are copied verbatim into the object, so the resulting pattern depends on
the host byte order.  On a little-endian host the first stream byte becomes
the least significant byte of the pattern. -/
def hostBits (littleEndian : Bool) (bs : List Nat) : Nat :=
  if littleEndian then beJoin bs.reverse else beJoin bs

/-- Semantic value produced by the generic `operator>>(Unpacker&, T&)` before
the final C-style cast `(T) ...`.  Integer, boolean and fixnum paths produce
mathematical integers; the float paths produce the raw bit pattern that
`read_raw<float>` / `read_raw<double>` deposits into the object (see
`hostBits`): the floating-point value itself is just that pattern read as an
IEEE float, which the claims compare at the bit level. -/
inductive NumVal where
  | int (i : Int)
  | floatBits (width : Nat) (bits : Nat)
deriving DecidableEq

/-- Dispatch of the generic `operator>>(Unpacker&, T&)` on the leader byte it
just consumed (`le` is the host endianness used by the float paths; `tn` is
`typeid(T).name()`). -/
def decodeLead (le : Bool) (tn : String) (leader : Nat) (u1 : Unpacker) :
    Option (Except String (NumVal × Unpacker)) :=
  if MSGPACK_POSITIVE_FIXNUM_MIN ≤ leader ∧ leader ≤ MSGPACK_POSITIVE_FIXNUM_MAX then
    some (.ok (.int leader, u1))
  else if MSGPACK_NEGATIVE_FIXNUM_MIN ≤ leader ∧ leader ≤ MSGPACK_NEGATIVE_FIXNUM_MAX then
    some (.ok (.int (toSigned 8 leader), u1))
  else if leader = MSGPACK_FALSE then
    some (.ok (.int 0, u1))
  else if leader = MSGPACK_TRUE then
    some (.ok (.int 1, u1))
  else if leader = MSGPACK_FLOAT then
    match readRawBytes u1 4 with
    | none => none
    | some (bs, u2) => some (.ok (.floatBits 4 (hostBits le bs), u2))
  else if leader = MSGPACK_DOUBLE then
    match readRawBytes u1 8 with
    | none => none
    | some (bs, u2) => some (.ok (.floatBits 8 (hostBits le bs), u2))
  else if leader = MSGPACK_UINT8 then
    match readBE u1 1 with
    | none => none
    | some (n, u2) => some (.ok (.int n, u2))
  else if leader = MSGPACK_UINT16 then
    match readBE u1 2 with
    | none => none
    | some (n, u2) => some (.ok (.int n, u2))
  else if leader = MSGPACK_UINT32 then
    match readBE u1 4 with
    | none => none
    | some (n, u2) => some (.ok (.int n, u2))
  else if leader = MSGPACK_UINT64 then
    match readBE u1 8 with
    | none => none
    | some (n, u2) => some (.ok (.int n, u2))
  else if leader = MSGPACK_INT8 then
    match readBE u1 1 with
    | none => none
    | some (n, u2) => some (.ok (.int (toSigned 8 n), u2))
  else if leader = MSGPACK_INT16 then
    match readBE u1 2 with
    | none => none
    | some (n, u2) => some (.ok (.int (toSigned 16 n), u2))
  else if leader = MSGPACK_INT32 then
    match readBE u1 4 with
    | none => none
    | some (n, u2) => some (.ok (.int (toSigned 32 n), u2))
  else if leader = MSGPACK_INT64 then
    match readBE u1 8 with
    | none => none
    | some (n, u2) => some (.ok (.int (toSigned 64 n), u2))
  else
    some (.error ("Don\x27t know how to convert MessagePack type " ++
      toString leader ++ " to type " ++ tn))

/-- The generic `operator>>(Unpacker&, T&)`: read the leader byte, then
dispatch (`decodeLead`). -/
def nextValue (le : Bool) (tn : String) (u : Unpacker) :
    Option (Except String (NumVal × Unpacker)) :=
  match read_u8 u with
  | none => none
  | some (leader, u1) => decodeLead le tn leader u1

/-- The final cast `(T) value` for `T = uint64_t`: wrap the integer modulo
`2 ^ 64`.  The cast of a float result goes through floating-point semantics,
which the claims never exercise; it is left unmodelled (`none`). -/
def castUInt64 : NumVal → Option Nat
  | .int i => some (i % (2 : Int) ^ 64).toNat
  | .floatBits _ _ => none

/-- The final cast `(T) value` for `T = int64_t`: wrap modulo `2 ^ 64` and
reinterpret as twos-complement.  Float results unmodelled as in
`castUInt64`. -/
def castInt64 : NumVal → Option Int
  | .int i => some (toSigned 64 (i % (2 : Int) ^ 64).toNat)
  | .floatBits _ _ => none

/-- `unpacker.next<uint64_t>()`: generic decode followed by the cast. -/
def next_uint64 (le : Bool) (tn : String) (u : Unpacker) :
    Option (Except String (Nat × Unpacker)) :=
  match nextValue le tn u with
  | none => none
  | some (.error e) => some (.error e)
  | some (.ok (v, u1)) =>
    match castUInt64 v with
    | some n => some (.ok (n, u1))
    | none => none

/-- `unpacker.next<int64_t>()`: generic decode followed by the cast. -/
def next_int64 (le : Bool) (tn : String) (u : Unpacker) :
    Option (Except String (Int × Unpacker)) :=
  match nextValue le tn u with
  | none => none
  | some (.error e) => some (.error e)
  | some (.ok (v, u1)) =>
    match castInt64 v with
    | some i => some (.ok (i, u1))
    | none => none

/-- `Unpacker::next_is_nil()`: peek and compare against `MSGPACK_NIL` without
consuming. -/
def next_is_nil (u : Unpacker) : Option (Bool × Unpacker) :=
  match peek u with
  | none => none
  | some (b, u1) => some (b == MSGPACK_NIL, u1)

/-- `Unpacker::next_nil()`: consume one byte; succeed iff it is the nil tag,
otherwise throw the conversion error naming the tag. -/
def next_nil (u : Unpacker) : Option (Except String Unpacker) :=
  match read_u8 u with
  | none => none
  | some (leader, u1) =>
    if leader = MSGPACK_NIL then some (.ok u1)
    else some (.error ("Don\x27t know how to convert MessagePack type " ++
      toString leader ++ " to nil"))

/-- `Unpacker::next_array_length()`. -/
def next_array_length (u : Unpacker) : Option (Except String (Nat × Unpacker)) :=
  match read_u8 u with
  | none => none
  | some (leader, u1) =>
    if MSGPACK_FIXARRAY_MIN ≤ leader ∧ leader ≤ MSGPACK_FIXARRAY_MAX then
      some (.ok (leader &&& 15, u1))
    else if leader = MSGPACK_ARRAY16 then
      match readBE u1 2 with
      | none => none
      | some (n, u2) => some (.ok (n, u2))
    else if leader = MSGPACK_ARRAY32 then
      match readBE u1 4 with
      | none => none
      | some (n, u2) => some (.ok (n, u2))
    else
      some (.error ("Don\x27t know how to convert MessagePack type " ++
        toString leader ++ " to array"))

/-- `Unpacker::next_map_length()`. -/
def next_map_length (u : Unpacker) : Option (Except String (Nat × Unpacker)) :=
  match read_u8 u with
  | none => none
  | some (leader, u1) =>
    if MSGPACK_FIXMAP_MIN ≤ leader ∧ leader ≤ MSGPACK_FIXMAP_MAX then
      some (.ok (leader &&& 15, u1))
    else if leader = MSGPACK_MAP16 then
      match readBE u1 2 with
      | none => none
      | some (n, u2) => some (.ok (n, u2))
    else if leader = MSGPACK_MAP32 then
      match readBE u1 4 with
      | none => none
      | some (n, u2) => some (.ok (n, u2))
    else
      some (.error ("Don\x27t know how to convert MessagePack type " ++
        toString leader ++ " to map"))

/-- `operator>>(Unpacker&, std::string&)`: read the leader, derive the length
(`leader & 31` for fixraw, a big-endian 2- or 4-byte prefix for raw16/raw32),
then read exactly that many payload bytes verbatim. -/
def nextString (u : Unpacker) : Option (Except String (List Nat × Unpacker)) :=
  match read_u8 u with
  | none => none
  | some (leader, u1) =>
    if MSGPACK_FIXRAW_MIN ≤ leader ∧ leader ≤ MSGPACK_FIXRAW_MAX then
      match readRawBytes u1 (leader &&& 31) with
      | none => none
      | some (bs, u2) => some (.ok (bs, u2))
    else if leader = MSGPACK_RAW16 then
      match readBE u1 2 with
      | none => none
      | some (n, u2) =>
        match readRawBytes u2 n with
        | none => none
        | some (bs, u3) => some (.ok (bs, u3))
    else if leader = MSGPACK_RAW32 then
      match readBE u1 4 with
      | none => none
      | some (n, u2) =>
        match readRawBytes u2 n with
        | none => none
        | some (bs, u3) => some (.ok (bs, u3))
    else
      some (.error ("Don\x27t know how to convert MessagePack type " ++
        toString leader ++ " to string"))

/-- The element loop of `operator>>(Unpacker&, std::vector<T>&)`: perform `n`
sequential single-value decodes with the element decoder `dec`, appending each
result to the accumulator (`push_back`). -/
def decodeN {α : Type} (dec : Unpacker → Option (Except String (α × Unpacker))) :
    Nat → Unpacker → List α → Option (Except String (List α × Unpacker))
  | 0, u, acc => some (.ok (acc, u))
  | n + 1, u, acc =>
    match dec u with
    | none => none
    | some (.error e) => some (.error e)
    | some (.ok (x, u1)) => decodeN dec n u1 (acc ++ [x])

/-- `operator>>(Unpacker&, std::vector<T>&)`: obtain the length, clear the
output, then decode that many elements in order. -/
def nextVector {α : Type} (dec : Unpacker → Option (Except String (α × Unpacker)))
    (u : Unpacker) : Option (Except String (List α × Unpacker)) :=
  match next_array_length u with
  | none => none
  | some (.error e) => some (.error e)
  | some (.ok (n, u1)) => decodeN dec n u1 []

/-- Insert-or-replace into an association list: the model of
`obj[key] = val` on a `std::map` (replace the value if the key is present,
insert otherwise). -/
def mapInsert {K V : Type} [DecidableEq K] :
    List (K × V) → K → V → List (K × V)
  | [], k, v => [(k, v)]
  | (k0, v0) :: rest, k, v =>
    if k = k0 then (k, v) :: rest else (k0, v0) :: mapInsert rest k v

/-- Lookup in the association-list model of `std::map`. -/
def mapLookup {K V : Type} [DecidableEq K] : List (K × V) → K → Option V
  | [], _ => none
  | (k0, v0) :: rest, k => if k = k0 then some v0 else mapLookup rest k

/-- The entry loop of `operator>>(Unpacker&, std::map<K, V>&)`: `n` sequential
(key decode, value decode) pairs, each inserted with `obj[key] = val`. -/
def decodeMapN {K V : Type} [DecidableEq K]
    (decK : Unpacker → Option (Except String (K × Unpacker)))
    (decV : Unpacker → Option (Except String (V × Unpacker))) :
    Nat → Unpacker → List (K × V) → Option (Except String (List (K × V) × Unpacker))
  | 0, u, acc => some (.ok (acc, u))
  | n + 1, u, acc =>
    match decK u with
    | none => none
    | some (.error e) => some (.error e)
    | some (.ok (k, u1)) =>
      match decV u1 with
      | none => none
      | some (.error e) => some (.error e)
      | some (.ok (v, u2)) => decodeMapN decK decV n u2 (mapInsert acc k v)

/-- `operator>>(Unpacker&, std::map<K, V>&)`: obtain the length, clear the
output, then decode that many key/value pairs. -/
def nextMap {K V : Type} [DecidableEq K]
    (decK : Unpacker → Option (Except String (K × Unpacker)))
    (decV : Unpacker → Option (Except String (V × Unpacker)))
    (u : Unpacker) : Option (Except String (List (K × V) × Unpacker)) :=
  match next_map_length u with
  | none => none
  | some (.error e) => some (.error e)
  | some (.ok (n, u1)) => decodeMapN decK decV n u1 []

/-- Wire bytes of a list of key/value pairs, each encoded as two consecutive
single-byte values (used to state the map-decode claims). -/
def encPairs : List (Nat × Nat) → List Nat
  | [] => []
  | p :: t => p.1 :: p.2 :: encPairs t

/-! Event-level model of the inner `while` loop of
`Unpacker::read_raw_bytes`: each call to `::read(fd, buf, bytes)` produces one
event of the underlying stream. -/

/-- One result of the underlying `::read` call: a chunk of bytes (possibly
empty, which is how `read` signals end of stream), a transient interruption
(`-1` with `errno == EINTR`), or another failure (`-1` with `strerror(errno)`
text `msg`). -/
inductive ReadEvent where
  | chunk (bs : List Nat)
  | eintr
  | fail (msg : String)

/-- Drop the first event of an event source. -/
def shiftSrc (src : Nat → ReadEvent) : Nat → ReadEvent :=
  fun i => src (i + 1)

/-- Prepend an event to an event source. -/
def consEv (e : ReadEvent) (src : Nat → ReadEvent) : Nat → ReadEvent :=
  fun i =>
    match i with
    | 0 => e
    | i + 1 => src i

/-- The `while (bytes > 0)` loop of `Unpacker::read_raw_bytes`, with `fuel`
bounding the number of loop iterations the model is allowed to run: `none`
means the loop has not returned within `fuel` iterations.  An `eintr` event is
retried (`continue`), a `fail` event throws the stream error, and a `chunk`
event advances the buffer pointer (the kernel writes at most `need` bytes,
hence `take need`). -/
def readRawLoop (fuel : Nat) (src : Nat → ReadEvent) (acc : List Nat)
    (need : Nat) : Option (Except String (List Nat)) :=
  if need = 0 then some (.ok acc)
  else
    match fuel with
    | 0 => none
    | fuel + 1 =>
      match src 0 with
      | .eintr => readRawLoop fuel (shiftSrc src) acc need
      | .fail msg => some (.error ("Read from stream failed: " ++ msg))
      | .chunk bs =>
        readRawLoop fuel (shiftSrc src) (acc ++ bs.take need)
          (need - (bs.take need).length)

/-- A stream at end of file: every `::read` returns zero bytes. -/
def eofSrc : Nat → ReadEvent := fun _ => ReadEvent.chunk []

/-- A stream that delivers the bytes of `bs` one per `::read` call. -/
def oneByteSrc (bs : List Nat) : Nat → ReadEvent :=
  fun i => ReadEvent.chunk ((bs.drop i).take 1)

/-! Helper lemmas shared by the claim theorems. -/

theorem peek_logical (u : Unpacker) (b : Nat) (rest : List Nat)
    (h : logicalRem u = b :: rest) : peek u = some (b, ⟨some b, rest⟩) := by
  rcases u with ⟨la, s⟩
  cases la with
  | none =>
    simp only [logicalRem, Option.toList, List.nil_append] at h
    subst h
    rfl
  | some a =>
    simp only [logicalRem, Option.toList, List.cons_append, List.nil_append,
      List.cons.injEq] at h
    obtain ⟨rfl, rfl⟩ := h
    rfl

theorem read_u8_logical (u : Unpacker) (b : Nat) (rest : List Nat)
    (h : logicalRem u = b :: rest) : read_u8 u = some (b, ⟨none, rest⟩) := by
  rcases u with ⟨la, s⟩
  cases la with
  | none =>
    simp only [logicalRem, Option.toList, List.nil_append] at h
    subst h
    simp [read_u8, readRawBytes]
  | some a =>
    simp only [logicalRem, Option.toList, List.cons_append, List.nil_append,
      List.cons.injEq] at h
    obtain ⟨rfl, rfl⟩ := h
    simp [read_u8, readRawBytes]

theorem read_u8_cons (b : Nat) (s : List Nat) :
    read_u8 ⟨none, b :: s⟩ = some (b, ⟨none, s⟩) :=
  read_u8_logical _ b s rfl

theorem readRawBytes_exact (bs rest : List Nat) :
    readRawBytes ⟨none, bs ++ rest⟩ bs.length = some (bs, ⟨none, rest⟩) := by
  have hle : bs.length ≤ (bs ++ rest).length := by
    simp [List.length_append]
  simp only [readRawBytes, if_pos hle]
  rw [List.take_append_of_le_length (Nat.le_refl _),
    List.drop_append_of_le_length (Nat.le_refl _)]
  simp

theorem readBE_exact (bs rest : List Nat) :
    readBE ⟨none, bs ++ rest⟩ bs.length = some (beJoin bs, ⟨none, rest⟩) := by
  simp [readBE, readRawBytes_exact]

theorem land15_eq (base k : Nat) (hb : base % 16 = 0) (hk : k ≤ 15) :
    (base + k) &&& 15 = k := by
  have h : (base + k) &&& 2 ^ 4 - 1 = (base + k) % 2 ^ 4 :=
    Nat.and_pow_two_sub_one_eq_mod (base + k) 4
  norm_num at h
  omega

theorem land31_eq (base k : Nat) (hb : base % 32 = 0) (hk : k ≤ 31) :
    (base + k) &&& 31 = k := by
  have h : (base + k) &&& 2 ^ 5 - 1 = (base + k) % 2 ^ 5 :=
    Nat.and_pow_two_sub_one_eq_mod (base + k) 5
  norm_num at h
  omega

theorem castUInt64_int_small (i : Int) (h1 : 0 ≤ i) (h2 : i < 2 ^ 64) :
    castUInt64 (.int i) = some i.toNat := by
  simp only [castUInt64, Option.some.injEq]
  norm_num at h2 ⊢
  omega

theorem castInt64_int_small (i : Int) (h1 : -(2 ^ 63) ≤ i) (h2 : i < 2 ^ 63) :
    castInt64 (.int i) = some i := by
  simp only [castInt64, toSigned, Option.some.injEq]
  norm_num at h1 h2 ⊢
  split_ifs with hlt
  · omega
  · omega

/-! Claim theorems. -/

/-- C2: for every tag byte `t` with `0x00 <= t <= 0x7F`, decoding the next
value as an unsigned integer returns exactly `t`; for every tag byte `t` with
`0xE0 <= t <= 0xFF`, decoding the next value as a signed integer returns `t`
reinterpreted as a twos-complement signed 8-bit value (that is,
`(t : Int) - 256`). -/
theorem fixnum_decode (le : Bool) (tn : String) (t : Nat) (rest : List Nat) :
    (t ≤ 0x7F →
      next_uint64 le tn ⟨none, t :: rest⟩ = some (.ok (t, ⟨none, rest⟩))) ∧
    (0xE0 ≤ t → t ≤ 0xFF →
      next_int64 le tn ⟨none, t :: rest⟩ =
        some (.ok (toSigned 8 t, ⟨none, rest⟩)) ∧
      toSigned 8 t = (t : Int) - 256) := by
  constructor
  · intro h
    have h1 : MSGPACK_POSITIVE_FIXNUM_MIN ≤ t ∧ t ≤ MSGPACK_POSITIVE_FIXNUM_MAX :=
      ⟨Nat.zero_le t, h⟩
    have h2 : castUInt64 (.int t) = some ((t : Int)).toNat :=
      castUInt64_int_small t (by positivity) (by norm_num; omega)
    simp only [next_uint64, nextValue, read_u8_cons, decodeLead, if_pos h1, h2,
      Int.toNat_natCast]
  · intro he hf
    have h1 : ¬(MSGPACK_POSITIVE_FIXNUM_MIN ≤ t ∧ t ≤ MSGPACK_POSITIVE_FIXNUM_MAX) := by
      simp only [MSGPACK_POSITIVE_FIXNUM_MIN, MSGPACK_POSITIVE_FIXNUM_MAX]
      omega
    have h2 : MSGPACK_NEGATIVE_FIXNUM_MIN ≤ t ∧ t ≤ MSGPACK_NEGATIVE_FIXNUM_MAX :=
      ⟨he, hf⟩
    have hsv : toSigned 8 t = (t : Int) - 256 := by
      simp only [toSigned]
      rw [if_neg (by norm_num; omega)]
      norm_num
    have h3 : castInt64 (.int (toSigned 8 t)) = some (toSigned 8 t) := by
      apply castInt64_int_small
      · rw [hsv]; norm_num; omega
      · rw [hsv]; norm_num; omega
    refine ⟨?_, hsv⟩
    simp only [next_int64, nextValue, read_u8_cons, decodeLead, if_neg h1,
      if_pos h2, h3]

/-- C2 witness: the unsigned decode of tag `0x05` yields 5 and the signed
decode of tag `0xFF` yields `-1` (as `toSigned 8 0xFF`). -/
theorem fixnum_decode_witness :
    next_uint64 true "m" ⟨none, [0x05]⟩ = some (.ok (5, ⟨none, []⟩)) ∧
    (next_int64 true "m" ⟨none, [0xFF]⟩ =
        some (.ok (toSigned 8 0xFF, ⟨none, []⟩)) ∧
      toSigned 8 0xFF = (0xFF : Int) - 256) :=
  ⟨(fixnum_decode true "m" 0x05 []).1 (by decide),
   (fixnum_decode true "m" 0xFF []).2 (by decide) (by decide)⟩

/-- C3: tag `0x7F` decoded as a numeric value yields 127; tag `0x80` decoded
as a numeric value raises a decode failure; the same tag `0x80` passed to the
map-length operation is accepted as a fixmap of length 0. -/
theorem boundary_7F_80 (le : Bool) (tn : String) :
    next_uint64 le tn ⟨none, [0x7F]⟩ = some (.ok (127, ⟨none, []⟩)) ∧
    nextValue le tn ⟨none, [0x80]⟩ =
      some (.error ("Don\x27t know how to convert MessagePack type 128 to type " ++ tn)) ∧
    next_map_length ⟨none, [0x80]⟩ = some (.ok (0, ⟨none, []⟩)) := by
  refine ⟨?_, ?_, ?_⟩ <;> rfl

/-- C3 witness: the theorem instantiated at a concrete target type name. -/
theorem boundary_7F_80_witness :
    next_uint64 false "j" ⟨none, [0x7F]⟩ = some (.ok (127, ⟨none, []⟩)) ∧
    nextValue false "j" ⟨none, [0x80]⟩ =
      some (.error ("Don\x27t know how to convert MessagePack type 128 to type " ++ "j")) ∧
    next_map_length ⟨none, [0x80]⟩ = some (.ok (0, ⟨none, []⟩)) :=
  boundary_7F_80 false "j"

/-- C4: when the next unread byte is the nil tag `0xC0`, `next_is_nil` returns
true without advancing the logical stream position, and a subsequent
`next_nil` consumes exactly one byte and succeeds; `next_nil` raises a decode
failure naming the offending tag value if and only if the consumed byte is not
`0xC0`. -/
theorem nil_peek_consume (u : Unpacker) (b : Nat) (rest : List Nat)
    (h : logicalRem u = b :: rest) :
    (b = MSGPACK_NIL →
      next_is_nil u = some (true, ⟨some b, rest⟩) ∧
      logicalRem ⟨some b, rest⟩ = b :: rest ∧
      next_nil ⟨some b, rest⟩ = some (.ok ⟨none, rest⟩) ∧
      logicalRem ⟨none, rest⟩ = rest) ∧
    (∀ r, next_nil u = some r →
      (r = .ok ⟨none, rest⟩ ↔ b = MSGPACK_NIL) ∧
      (b ≠ MSGPACK_NIL →
        r = .error ("Don\x27t know how to convert MessagePack type " ++
          toString b ++ " to nil"))) := by
  have hpk := peek_logical u b rest h
  have hrd := read_u8_logical u b rest h
  constructor
  · intro hb
    subst hb
    have hrd2 : read_u8 (⟨some MSGPACK_NIL, rest⟩ : Unpacker) =
        some (MSGPACK_NIL, ⟨none, rest⟩) :=
      read_u8_logical _ _ _ rfl
    refine ⟨?_, rfl, ?_, rfl⟩
    · simp [next_is_nil, hpk]
    · simp [next_nil, hrd2]
  · intro r hr
    simp only [next_nil, hrd] at hr
    by_cases hb : b = MSGPACK_NIL
    · rw [if_pos hb] at hr
      simp only [Option.some.injEq] at hr
      subst hr
      exact ⟨by simp [hb], fun hc => absurd hb hc⟩
    · rw [if_neg hb] at hr
      simp only [Option.some.injEq] at hr
      subst hr
      refine ⟨?_, fun _ => rfl⟩
      constructor
      · intro hc
        exact Except.noConfusion hc
      · intro hc
        exact absurd hc hb

/-- C4 witness: on stream `[0xC0, 0x01]` the peek answers true without moving
the logical position and the consume succeeds, eating exactly the tag byte. -/
theorem nil_peek_consume_witness :
    next_is_nil ⟨none, [0xC0, 0x01]⟩ = some (true, ⟨some 0xC0, [0x01]⟩) ∧
    logicalRem ⟨some 0xC0, [0x01]⟩ = 0xC0 :: [0x01] ∧
    next_nil ⟨some 0xC0, [0x01]⟩ = some (.ok ⟨none, [0x01]⟩) ∧
    logicalRem ⟨none, [0x01]⟩ = [0x01] :=
  (nil_peek_consume ⟨none, [0xC0, 0x01]⟩ 0xC0 [0x01] rfl).1 rfl

theorem readRawBytes_take_drop (v : Unpacker) (n : Nat) (bs : List Nat)
    (v2 : Unpacker) (h : readRawBytes v n = some (bs, v2)) :
    bs = (logicalRem v).take n ∧ logicalRem v2 = (logicalRem v).drop n := by
  rcases v with ⟨la, s⟩
  cases la with
  | some a =>
    cases n with
    | zero =>
      simp only [readRawBytes, Option.some.injEq, Prod.mk.injEq] at h
      obtain ⟨rfl, rfl⟩ := h
      simp [logicalRem]
    | succ m =>
      by_cases hm : m ≤ s.length
      · simp only [readRawBytes, if_pos hm, Option.some.injEq, Prod.mk.injEq] at h
        obtain ⟨rfl, rfl⟩ := h
        simp [logicalRem]
      · simp [readRawBytes, if_neg hm] at h
  | none =>
    by_cases hn : n ≤ s.length
    · simp only [readRawBytes, if_pos hn, Option.some.injEq, Prod.mk.injEq] at h
      obtain ⟨rfl, rfl⟩ := h
      simp [logicalRem]
    · simp [readRawBytes, if_neg hn] at h

/-- C5: the one-byte lookahead invariant.  After a peek, the lookahead slot
holds the peeked byte; a repeated peek returns the same byte and the same
state, so it performs no further underlying read; the logical position is
unchanged by the peek, and the peek itself performed at most one underlying
read; and any subsequent read returns exactly the next `n` logical bytes
(consuming the buffered byte exactly once) and leaves the remaining logical
bytes, so no stream byte is duplicated or lost. -/
theorem lookahead_invariant (u u2 : Unpacker) (b : Nat)
    (hpk : peek u = some (b, u2)) :
    u2.lookahead = some b ∧
    peek u2 = some (b, u2) ∧
    logicalRem u2 = logicalRem u ∧
    u.stream.length ≤ u2.stream.length + 1 ∧
    (∀ (v : Unpacker) (n : Nat) (bs : List Nat) (v2 : Unpacker),
      readRawBytes v n = some (bs, v2) →
      bs = (logicalRem v).take n ∧ logicalRem v2 = (logicalRem v).drop n) := by
  rcases u with ⟨la, s⟩
  cases la with
  | some a =>
    simp only [peek, Option.some.injEq, Prod.mk.injEq] at hpk
    obtain ⟨rfl, rfl⟩ := hpk
    exact ⟨rfl, rfl, rfl, Nat.le_succ _,
      fun v n bs v2 h => readRawBytes_take_drop v n bs v2 h⟩
  | none =>
    cases s with
    | nil => simp [peek] at hpk
    | cons c rest =>
      simp only [peek, Option.some.injEq, Prod.mk.injEq] at hpk
      obtain ⟨rfl, rfl⟩ := hpk
      refine ⟨rfl, rfl, rfl, ?_, fun v n bs v2 h => readRawBytes_take_drop v n bs v2 h⟩
      simp

/-- C5 witness: peeking `⟨none, [5, 6]⟩` buffers the byte 5; the repeated
peek returns the same byte and state, and the logical position is
unchanged. -/
theorem lookahead_invariant_witness :
    peek (⟨some 5, [6]⟩ : Unpacker) = some (5, ⟨some 5, [6]⟩) ∧
    logicalRem ⟨some 5, [6]⟩ = logicalRem ⟨none, [5, 6]⟩ :=
  ⟨(lookahead_invariant ⟨none, [5, 6]⟩ ⟨some 5, [6]⟩ 5 rfl).2.1,
   (lookahead_invariant ⟨none, [5, 6]⟩ ⟨some 5, [6]⟩ 5 rfl).2.2.1⟩

/-- C1: evaluation of the float decode at the failing input.  For the wire
bytes `CA 3F 80 00 00` (float32 1.0: payload big-endian `0x3F800000`),
`read_raw<float>` copies the payload bytes into the float object verbatim, so
on a little-endian host the resulting bit pattern is `0x0000803F`, not the
big-endian-converted pattern `0x3F800000`: no wire-to-native conversion
happens.  By contrast the integer path for the same payload (`CE 3F 80 00
00`) does convert and yields `0x3F800000`.  The float64 path behaves the same
way on its 8 payload bytes. -/
theorem float_decode_no_byteswap :
    nextValue true "f" ⟨none, [0xCA, 0x3F, 0x80, 0x00, 0x00]⟩ =
      some (.ok (.floatBits 4 0x0000803F, ⟨none, []⟩)) ∧
    hostBits true [0x3F, 0x80, 0x00, 0x00] ≠ beJoin [0x3F, 0x80, 0x00, 0x00] ∧
    beJoin [0x3F, 0x80, 0x00, 0x00] = 0x3F800000 ∧
    nextValue true "u" ⟨none, [0xCE, 0x3F, 0x80, 0x00, 0x00]⟩ =
      some (.ok (.int 0x3F800000, ⟨none, []⟩)) ∧
    nextValue true "d" ⟨none, [0xCB, 0x3F, 0xF0, 0x00, 0x00, 0x00, 0x00, 0x00, 0x00]⟩ =
      some (.ok (.floatBits 8 0x000000000000F03F, ⟨none, []⟩)) := by
  exact ⟨rfl, by decide, rfl, rfl, rfl⟩

theorem readBE2 (a b : Nat) (s : List Nat) :
    readBE ⟨none, a :: b :: s⟩ 2 = some (beJoin [a, b], ⟨none, s⟩) :=
  readBE_exact [a, b] s

theorem readBE4 (a b c d : Nat) (s : List Nat) :
    readBE ⟨none, a :: b :: c :: d :: s⟩ 4 = some (beJoin [a, b, c, d], ⟨none, s⟩) :=
  readBE_exact [a, b, c, d] s

/-- C9: string decode reads one tag byte, derives the payload length
(`tag & 0x1F` for fixraw tags `0xA0`..`0xBF`, a 2- or 4-byte big-endian
prefix for raw16/raw32), then reads exactly that many payload bytes verbatim
with no encoding validation: the decoded string is exactly the payload bytes
and exactly the payload is consumed after the tag (and length prefix). -/
theorem string_decode (payload rest : List Nat) (h2a h2b h4a h4b h4c h4d : Nat)
    (hfix : payload.length ≤ 31)
    (h16 : beJoin [h2a, h2b] = payload.length)
    (h32 : beJoin [h4a, h4b, h4c, h4d] = payload.length) :
    nextString ⟨none, (0xA0 + payload.length) :: (payload ++ rest)⟩ =
      some (.ok (payload, ⟨none, rest⟩)) ∧
    nextString ⟨none, 0xDA :: h2a :: h2b :: (payload ++ rest)⟩ =
      some (.ok (payload, ⟨none, rest⟩)) ∧
    nextString ⟨none, 0xDB :: h4a :: h4b :: h4c :: h4d :: (payload ++ rest)⟩ =
      some (.ok (payload, ⟨none, rest⟩)) := by
  refine ⟨?_, ?_, ?_⟩
  · simp only [nextString, read_u8_cons]
    rw [if_pos (show MSGPACK_FIXRAW_MIN ≤ 0xA0 + payload.length ∧
        0xA0 + payload.length ≤ MSGPACK_FIXRAW_MAX by
      simp only [MSGPACK_FIXRAW_MIN, MSGPACK_FIXRAW_MAX]; omega)]
    rw [land31_eq 0xA0 payload.length (by norm_num) hfix]
    simp only [readRawBytes_exact]
  · simp only [nextString, read_u8_cons]
    rw [if_neg (by decide), if_pos (by decide : (0xDA : Nat) = MSGPACK_RAW16)]
    simp only [readBE2, h16, readRawBytes_exact]
  · simp only [nextString, read_u8_cons]
    rw [if_neg (by decide), if_neg (by decide),
      if_pos (by decide : (0xDB : Nat) = MSGPACK_RAW32)]
    simp only [readBE4, h32, readRawBytes_exact]

/-- C9 witness: the bytes `[0xA3, 0x66, 0x6F, 0x6F]` decode to the byte
string "foo" (`[0x66, 0x6F, 0x6F]`) with exactly 3 bytes consumed after the
tag; the raw16 form `[0xDA, 0x00, 0x03, ...]` decodes identically. -/
theorem string_decode_witness :
    nextString ⟨none, [0xA3, 0x66, 0x6F, 0x6F]⟩ =
      some (.ok ([0x66, 0x6F, 0x6F], ⟨none, []⟩)) ∧
    nextString ⟨none, [0xDA, 0x00, 0x03, 0x66, 0x6F, 0x6F]⟩ =
      some (.ok ([0x66, 0x6F, 0x6F], ⟨none, []⟩)) :=
  ⟨(string_decode [0x66, 0x6F, 0x6F] [] 0 3 0 0 0 3 (by decide) (by decide)
      (by decide)).1,
   (string_decode [0x66, 0x6F, 0x6F] [] 0 3 0 0 0 3 (by decide) (by decide)
      (by decide)).2.1⟩

theorem array_length_fix (k : Nat) (s : List Nat) (hk : k ≤ 15) :
    next_array_length ⟨none, (0x90 + k) :: s⟩ = some (.ok (k, ⟨none, s⟩)) := by
  simp only [next_array_length, read_u8_cons]
  rw [if_pos (show MSGPACK_FIXARRAY_MIN ≤ 0x90 + k ∧ 0x90 + k ≤ MSGPACK_FIXARRAY_MAX by
    simp only [MSGPACK_FIXARRAY_MIN, MSGPACK_FIXARRAY_MAX]; omega)]
  rw [land15_eq 0x90 k (by norm_num) hk]

theorem map_length_fix (k : Nat) (s : List Nat) (hk : k ≤ 15) :
    next_map_length ⟨none, (0x80 + k) :: s⟩ = some (.ok (k, ⟨none, s⟩)) := by
  simp only [next_map_length, read_u8_cons]
  rw [if_pos (show MSGPACK_FIXMAP_MIN ≤ 0x80 + k ∧ 0x80 + k ≤ MSGPACK_FIXMAP_MAX by
    simp only [MSGPACK_FIXMAP_MIN, MSGPACK_FIXMAP_MAX]; omega)]
  rw [land15_eq 0x80 k (by norm_num) hk]

theorem next_int64_fixnum_pos (le : Bool) (tn : String) (b : Nat) (s : List Nat)
    (hb : b ≤ 0x7F) :
    next_int64 le tn ⟨none, b :: s⟩ = some (.ok ((b : Int), ⟨none, s⟩)) := by
  have h1 : MSGPACK_POSITIVE_FIXNUM_MIN ≤ b ∧ b ≤ MSGPACK_POSITIVE_FIXNUM_MAX :=
    ⟨Nat.zero_le b, hb⟩
  have h3 : castInt64 (.int b) = some (b : Int) :=
    castInt64_int_small b (by norm_num; omega) (by norm_num; omega)
  simp only [next_int64, nextValue, read_u8_cons, decodeLead, if_pos h1, h3]

theorem decodeN_fixnum_ints (le : Bool) (tn : String) (vs : List Nat)
    (hvs : ∀ b ∈ vs, b ≤ 0x7F) (rest : List Nat) (acc : List Int) :
    decodeN (next_int64 le tn) vs.length ⟨none, vs ++ rest⟩ acc =
      some (.ok (acc ++ vs.map (fun b => (b : Int)), ⟨none, rest⟩)) := by
  induction vs generalizing acc with
  | nil => simp [decodeN]
  | cons b tl ih =>
    have hb : b ≤ 0x7F := hvs b (by simp)
    have htl : ∀ x ∈ tl, x ≤ 0x7F := fun x hx => hvs x (by simp [hx])
    simp only [List.length_cons, List.cons_append, decodeN,
      next_int64_fixnum_pos le tn b (tl ++ rest) hb]
    rw [ih htl (acc ++ [(b : Int)])]
    simp

/-- C7: generic array decode obtains the element count `n` from the
array-length operation, then performs exactly `n` sequential single-value
decodes of the element type, producing an initially empty output sequence
whose elements appear in source order: a fixarray of `n` positive-fixnum
elements decodes to exactly those `n` integers in order, consuming exactly
the encoding. -/
theorem array_decode (le : Bool) (tn : String) (vs rest : List Nat)
    (hlen : vs.length ≤ 15) (hvs : ∀ b ∈ vs, b ≤ 0x7F) :
    nextVector (next_int64 le tn) ⟨none, (0x90 + vs.length) :: (vs ++ rest)⟩ =
      some (.ok (vs.map (fun b => (b : Int)), ⟨none, rest⟩)) := by
  simp only [nextVector, array_length_fix vs.length (vs ++ rest) hlen]
  simpa using decodeN_fixnum_ints le tn vs hvs rest []

/-- C7 witness: the bytes `[0x92, 0x01, 0x02]` decoded as an array of
integers yield the two-element sequence `[1, 2]`. -/
theorem array_decode_witness :
    nextVector (next_int64 true "l") ⟨none, [0x92, 0x01, 0x02]⟩ =
      some (.ok ([(1 : Int), 2], ⟨none, []⟩)) := by
  simpa using array_decode true "l" [0x01, 0x02] [] (by decide) (by decide)

theorem mapLookup_insert {K V : Type} [DecidableEq K] (m : List (K × V))
    (k : K) (v : V) : mapLookup (mapInsert m k v) k = some v := by
  induction m with
  | nil => simp [mapInsert, mapLookup]
  | cons p t ih =>
    obtain ⟨k0, v0⟩ := p
    by_cases hk : k = k0
    · simp [mapInsert, hk, mapLookup]
    · simp [mapInsert, hk, mapLookup, ih]

theorem decodeMapN_fixnum_ints (le : Bool) (tn : String) (ps : List (Nat × Nat))
    (hps : ∀ p ∈ ps, p.1 ≤ 0x7F ∧ p.2 ≤ 0x7F) (rest : List Nat)
    (acc : List (Int × Int)) :
    decodeMapN (next_int64 le tn) (next_int64 le tn) ps.length
      ⟨none, encPairs ps ++ rest⟩ acc =
      some (.ok (ps.foldl (fun m p => mapInsert m (p.1 : Int) (p.2 : Int)) acc,
        ⟨none, rest⟩)) := by
  induction ps generalizing acc with
  | nil => simp [decodeMapN, encPairs]
  | cons p t ih =>
    obtain ⟨k, v⟩ := p
    have hk : k ≤ 0x7F := (hps (k, v) (by simp)).1
    have hv : v ≤ 0x7F := (hps (k, v) (by simp)).2
    have ht : ∀ q ∈ t, q.1 ≤ 0x7F ∧ q.2 ≤ 0x7F := fun q hq => hps q (by simp [hq])
    simp only [List.length_cons, encPairs, List.cons_append, decodeMapN,
      next_int64_fixnum_pos le tn k (v :: (encPairs t ++ rest)) hk,
      next_int64_fixnum_pos le tn v (encPairs t ++ rest) hv]
    rw [ih ht (mapInsert acc (k : Int) (v : Int))]
    simp

/-- C8: generic map decode obtains the entry count `n` from the map-length
operation, then performs `n` sequential (key decode, value decode) pairs in
that order, inserting each with `obj[key] = val` into an initially empty
mapping; and insertion is last-write-wins: after inserting `v1` then `v2`
under the same key, the lookup of that key yields `v2`. -/
theorem map_decode (le : Bool) (tn : String) (ps : List (Nat × Nat))
    (rest : List Nat) (hlen : ps.length ≤ 15)
    (hps : ∀ p ∈ ps, p.1 ≤ 0x7F ∧ p.2 ≤ 0x7F) :
    nextMap (next_int64 le tn) (next_int64 le tn)
        ⟨none, (0x80 + ps.length) :: (encPairs ps ++ rest)⟩ =
      some (.ok (ps.foldl (fun m p => mapInsert m (p.1 : Int) (p.2 : Int)) [],
        ⟨none, rest⟩)) ∧
    (∀ (m : List (Int × Int)) (k v1 v2 : Int),
      mapLookup (mapInsert (mapInsert m k v1) k v2) k = some v2) := by
  refine ⟨?_, fun m k v1 v2 => mapLookup_insert (mapInsert m k v1) k v2⟩
  simp only [nextMap, map_length_fix ps.length (encPairs ps ++ rest) hlen]
  exact decodeMapN_fixnum_ints le tn ps hps rest []

/-- C8 witness: the bytes `[0x82, 0x01, 0x0A, 0x01, 0x0B]` (a fixmap of two
entries with the same key 1) decode to the single-entry mapping `[(1, 11)]`:
the later value 11 overwrote the earlier 10. -/
theorem map_decode_witness :
    nextMap (next_int64 true "l") (next_int64 true "l")
        ⟨none, [0x82, 0x01, 0x0A, 0x01, 0x0B]⟩ =
      some (.ok ([((1 : Int), (11 : Int))], ⟨none, []⟩)) ∧
    mapLookup (mapInsert (mapInsert ([] : List (Int × Int)) 1 10) 1 11) 1 =
      some 11 := by
  have h := map_decode true "l" [(1, 10), (1, 11)] [] (by decide) (by decide)
  refine ⟨?_, h.2 [] 1 10 11⟩
  have h1 := h.1
  simpa using h1

theorem shiftSrc_consEv (e : ReadEvent) (src : Nat → ReadEvent) :
    shiftSrc (consEv e src) = src :=
  rfl

theorem shiftSrc_oneByteSrc (b : Nat) (tl : List Nat) :
    shiftSrc (oneByteSrc (b :: tl)) = oneByteSrc tl := by
  funext i
  simp [shiftSrc, oneByteSrc]

theorem readRawLoop_oneByte (need : Nat) (bs acc : List Nat) (fuel : Nat)
    (h2 : need ≤ bs.length) (h3 : need ≤ fuel) :
    readRawLoop fuel (oneByteSrc bs) acc need =
      some (.ok (acc ++ bs.take need)) := by
  induction need generalizing bs acc fuel with
  | zero => cases fuel <;> simp [readRawLoop]
  | succ m ih =>
    cases bs with
    | nil => simp at h2
    | cons b tl =>
      cases fuel with
      | zero => omega
      | succ f =>
        rw [readRawLoop]
        rw [if_neg (Nat.succ_ne_zero m)]
        have hsrc : oneByteSrc (b :: tl) 0 = ReadEvent.chunk [b] := rfl
        simp only [hsrc, shiftSrc_oneByteSrc]
        have htk : (List.take (m + 1) [b]) = [b] := by simp
        simp only [htk, List.length_cons, List.length_nil, Nat.add_sub_cancel]
        have := ih tl (acc ++ [b]) f (by simpa using h2) (by omega)
        simpa [List.append_assoc] using this

/-- C6: during the multi-byte read loop, an underlying read that fails with a
transient interruption (EINTR) is retried without consuming or skipping any
input: the loop continues with the same buffer contents and the same
outstanding count; once the interruption clears the call still yields the
complete correct payload (here a stream delivering one byte per underlying
read); any other underlying I/O failure aborts the whole read at once with a
failure message carrying the underlying system error text. -/
theorem read_retry_eintr (fuel need : Nat) (bs acc : List Nat)
    (src : Nat → ReadEvent) (msg : String)
    (h1 : 0 < need) (h2 : need ≤ bs.length) (h3 : need ≤ fuel) :
    readRawLoop (fuel + 1) (consEv .eintr src) acc need =
      readRawLoop fuel src acc need ∧
    readRawLoop fuel (oneByteSrc bs) acc need =
      some (.ok (acc ++ bs.take need)) ∧
    readRawLoop (fuel + 1) (consEv .eintr (oneByteSrc bs)) acc need =
      some (.ok (acc ++ bs.take need)) ∧
    readRawLoop (fuel + 1) (consEv (.fail msg) src) acc need =
      some (.error ("Read from stream failed: " ++ msg)) := by
  have heintr : ∀ (s : Nat → ReadEvent),
      readRawLoop (fuel + 1) (consEv .eintr s) acc need =
        readRawLoop fuel s acc need := by
    intro s
    rw [readRawLoop]
    rw [if_neg (Nat.pos_iff_ne_zero.mp h1)]
    have h0 : consEv ReadEvent.eintr s 0 = ReadEvent.eintr := rfl
    simp only [h0, shiftSrc_consEv]
  refine ⟨heintr src, readRawLoop_oneByte need bs acc fuel h2 h3, ?_, ?_⟩
  · rw [heintr (oneByteSrc bs)]
    exact readRawLoop_oneByte need bs acc fuel h2 h3
  · rw [readRawLoop]
    rw [if_neg (Nat.pos_iff_ne_zero.mp h1)]
    have h0 : consEv (ReadEvent.fail msg) src 0 = ReadEvent.fail msg := rfl
    simp only [h0]

/-- C6 witness: with two bytes outstanding, a stream that signals EINTR once
and then delivers one byte per read still yields the complete payload, and a
failing stream aborts with the wrapped error text. -/
theorem read_retry_eintr_witness :
    readRawLoop 3 (consEv .eintr (oneByteSrc [7, 9])) [] 2 =
      some (.ok ([] ++ List.take 2 [7, 9])) ∧
    readRawLoop 3 (consEv (.fail "bad") eofSrc) [] 2 =
      some (.error ("Read from stream failed: " ++ "bad")) :=
  ⟨(read_retry_eintr 2 2 [7, 9] [] eofSrc "bad" (by decide) (by decide)
      (by decide)).2.2.1,
   (read_retry_eintr 2 2 [7, 9] [] eofSrc "bad" (by decide) (by decide)
      (by decide)).2.2.2⟩

/-- C10: when the underlying stream is at end of file, every `::read` returns
zero bytes; with `need > 0` bytes still outstanding the read loop neither
raises an error nor returns, re-issuing the zero-byte read indefinitely: for
every iteration bound `fuel` the loop is still running (the model returns
`none`), so the operation terminates only if the stream eventually supplies
the requested bytes. -/
theorem read_eof_spins (fuel : Nat) (acc : List Nat) (need : Nat)
    (h : 0 < need) : readRawLoop fuel eofSrc acc need = none := by
  induction fuel generalizing acc with
  | zero =>
    rw [readRawLoop]
    rw [if_neg (Nat.pos_iff_ne_zero.mp h)]
  | succ f ih =>
    rw [readRawLoop]
    rw [if_neg (Nat.pos_iff_ne_zero.mp h)]
    have h0 : eofSrc 0 = ReadEvent.chunk [] := rfl
    have hs : shiftSrc eofSrc = eofSrc := rfl
    simp only [h0, hs, List.take_nil, List.append_nil, List.length_nil,
      Nat.sub_zero]
    exact ih acc

/-- C10 witness: seven spins on an end-of-file stream with 3 bytes
outstanding produce no result. -/
theorem read_eof_spins_witness : readRawLoop 7 eofSrc [] 3 = none :=
  read_eof_spins 7 [] 3 (by decide)

end KitchenSync
